import Mathlib

/-!
Verification development for the validator of the pretrain subnet
(src/neurons/validator.py).  The definitions below shallowly embed the
evaluation round (`Validator.run_step`), its timeout wrapper
(`Validator.try_run_step`), the background model-sync scheduler
(`Validator.update_models`) and the block fetcher (`Validator.try_get_block`).

Machine floats are modelled by `Fl` (a rational payload plus the IEEE
special values NaN / +inf / -inf, with NaN-propagating arithmetic); the
external collaborators (`pt.validation.iswin`, `pt.graph.load_model`,
`pt.validation.compute_losses`, `torch.exp` inside `torch.softmax`) are
parameters of the embedding, constrained only by their documented contracts.
Constants that live in the `pretrain` package rather than in
src/neurons/validator.py (`pt.alpha`, `pt.temperature`) are configuration
fields constrained by the spec (alpha in [0,1), temperature a nonzero
scaling constant).
-/

namespace PretrainValidator

/-- Model of an IEEE double as it occurs in this pipeline: a rational
value, or one of the special values NaN, +inf, -inf.  (Finite-precision
rounding is not modelled; every arithmetic claim in the spec is about the
exact algebra, and the code never relies on rounding.) -/
inductive Fl where
  | nan  : Fl
  | inf  : Fl
  | ninf : Fl
  | val  : ℚ → Fl
deriving DecidableEq, Repr

namespace Fl

/-- IEEE addition on `Fl`: NaN propagates, opposite infinities give NaN. -/
def add : Fl → Fl → Fl
  | nan, _ => nan
  | _, nan => nan
  | inf, ninf => nan
  | ninf, inf => nan
  | inf, _ => inf
  | _, inf => inf
  | ninf, _ => ninf
  | _, ninf => ninf
  | val a, val b => val (a + b)

/-- IEEE multiplication of a finite scalar with an `Fl` (`c * tensor` in
torch): NaN propagates, `0 * (+-inf) = NaN`. -/
def smul (c : ℚ) : Fl → Fl
  | nan => nan
  | inf => if 0 < c then inf else if c < 0 then ninf else nan
  | ninf => if 0 < c then ninf else if c < 0 then inf else nan
  | val a => val (c * a)

/-- IEEE division on `Fl`: NaN propagates, `0/0` and `inf/inf` are NaN, a
nonzero finite value divided by zero is a (signed) infinity.  (The pipeline
only ever exercises the finite/finite cases.) -/
def div : Fl → Fl → Fl
  | nan, _ => nan
  | _, nan => nan
  | inf, inf => nan
  | inf, ninf => nan
  | ninf, inf => nan
  | ninf, ninf => nan
  | inf, val b => if b < 0 then ninf else inf
  | ninf, val b => if b < 0 then inf else ninf
  | val _, inf => val 0
  | val _, ninf => val 0
  | val a, val b =>
    if b = 0 then (if a = 0 then nan else if 0 < a then inf else ninf)
    else val (a / b)

/-- IEEE `<` on `Fl`: any comparison with NaN is false. -/
def lt : Fl → Fl → Bool
  | nan, _ => false
  | _, nan => false
  | inf, _ => false
  | ninf, ninf => false
  | ninf, _ => true
  | val _, inf => true
  | val _, ninf => false
  | val a, val b => decide (a < b)

/-- Largest finite float32 value, used by `torch.nan_to_num` to replace
positive infinity when no replacement is given. -/
def FMAX : ℚ := 2 ^ 128 - 2 ^ 104

/-- `torch.Tensor.nan_to_num(0.0)`: NaN becomes 0, the infinities are
clamped to the largest finite values. -/
def nanToNum : Fl → Fl
  | nan => val 0
  | inf => val FMAX
  | ninf => val (-FMAX)
  | val a => val a

/-- Is this a finite (non-special) value? -/
def isNum : Fl → Bool
  | val _ => true
  | _ => false

end Fl

/-- `torch.Tensor.sum()` over the list of entries. -/
def sumFl (l : List Fl) : Fl := l.foldr Fl.add (Fl.val 0)

/-- Modelled from the spec: `pt.validation.iswin` is not under src/ (only
its caller `run_step` is).  The spec requires the comparator to be
deterministic, to let a strictly smaller loss with equal timestamps win,
and to let a +inf sentinel loss always lose and never win; the exact
timestamp tie-break rule is declared an external contract.  This model
compares the losses with the IEEE `<`, which satisfies every required
property (in particular `inf` never wins, even against `inf`). -/
def iswinSpec (lossA lossB : Fl) (_timeA _timeB : ℚ) : Bool :=
  Fl.lt lossA lossB

/-- Per-round external data and collaborators of `run_step`:
`uids` is the round's effective uid list in enumeration order (the order in
which `run_step` iterates `list(self.uids_to_eval)` after the metadata
filter; the code draws it from a Python set and guarantees no ordering),
`timestamps` is aligned with `uids` (line 215), `modelAvailable`/`modelLosses`
model `pt.graph.load_model` returning None resp. the losses
`pt.validation.compute_losses` would return (length contract: one loss per
batch), `numBatches` is the length of the round's batch list, and `iswin`
is the external comparator. -/
structure RoundData where
  uids : List ℕ
  timestamps : List ℚ
  modelAvailable : ℕ → Bool
  modelLosses : ℕ → List Fl
  numBatches : ℕ
  iswin : Fl → Fl → ℚ → ℚ → Bool

/-- Configuration constants of the validator: the softmax exponential `e`
(the mathematical `exp` inside `torch.softmax`, kept abstract: any strictly
positive function), the temperature `pt.temperature`, the EMA constant
`pt.alpha` (spec: a configured constant in [0,1)), and `--sample_min`. -/
structure Cfg where
  e : ℚ → ℚ
  T : ℚ
  alpha : ℚ
  sampleMin : ℕ

/-- The validator state shared across rounds: `self.weights`,
`self.uids_to_eval`, `self.pending_uids_to_eval`. -/
structure VState where
  weights : List Fl
  uidsToEval : Finset ℕ
  pending : Finset ℕ
deriving DecidableEq

/-- Lines 227-233: losses of one uid over the round's batches — `load_model`
returning None yields `math.inf` for every batch, otherwise the external
`compute_losses` result is used. -/
def lossesPerUid (rd : RoundData) (uid : ℕ) : List Fl :=
  if rd.modelAvailable uid then rd.modelLosses uid else List.replicate rd.numBatches Fl.inf

/-- Loss of the uid at position `i` of the round's uid list on batch `b`
(`losses_per_uid[uid_i][batch_idx]`). -/
def lossAt (rd : RoundData) (i b : ℕ) : Fl :=
  (lossesPerUid rd (rd.uids.getD i 0)).getD b Fl.nan

/-- Lines 241-251: `wins[uid_i]`, accumulated over every other position `j`
and every batch index. -/
def winsAt (rd : RoundData) (i : ℕ) : ℕ :=
  ((List.range rd.uids.length).map (fun j =>
    if j = i then 0
    else ((List.range rd.numBatches).map (fun b =>
      if rd.iswin (lossAt rd i b) (lossAt rd j b)
          (rd.timestamps.getD i 0) (rd.timestamps.getD j 0) then 1 else 0)).sum)).sum

/-- Lines 242-251: `total_matches` for position `i` — one increment per
other position and batch. -/
def totalMatchesAt (rd : RoundData) (i : ℕ) : ℕ :=
  ((List.range rd.uids.length).map (fun j =>
    if j = i then 0 else rd.numBatches)).sum

/-- Line 253: `win_rate[uid_i] = wins[uid_i] / total_matches if
total_matches > 0 else 0`. -/
def winRateAt (rd : RoundData) (i : ℕ) : ℚ :=
  if 0 < totalMatchesAt rd i then
    (winsAt rd i : ℚ) / (totalMatchesAt rd i : ℚ)
  else 0

/-- `win_rate[uid]` as the dict lookup by uid: the value computed at the
uid's position in the round's uid list (`uids` has no duplicates, coming
from a Python set). -/
def uidWR (rd : RoundData) (u : ℕ) : ℚ :=
  winRateAt rd (rd.uids.indexOf u)

/-- Line 267: `sorted(win_rate, key=win_rate.get, reverse=True)` — Python's
stable sort over the dict's keys (= the round's uid enumeration order),
descending by win rate.  A stable descending sort by key `f` is a stable
sort under `f b <= f a`. -/
def sortedUids (rd : RoundData) : List ℕ :=
  rd.uids.mergeSort (fun a b => decide (uidWR rd b ≤ uidWR rd a))

/-- The denominator of `torch.softmax(xs / T, dim=0)`: the sum of the
exponentials of the temperature-scaled entries. -/
def softmaxDenom (e : ℚ → ℚ) (T : ℚ) (xs : List ℚ) : ℚ :=
  (xs.map (fun x => e (x / T))).sum

/-- Lines 255-256: `torch.softmax(model_weights / pt.temperature, dim=0)`
with an abstract exponential `e`: exponentiate each entry divided by the
temperature, then divide by the total of those exponentials. -/
def softmax (e : ℚ → ℚ) (T : ℚ) (xs : List ℚ) : List ℚ :=
  xs.map (fun x => e (x / T) / softmaxDenom e T xs)

/-- Lines 260-261: `new_weights = torch.zeros_like(self.weights)` then
`new_weights[uid_i] = step_weights[i]` for each position.  (`List.set`
leaves the vector unchanged out of range; in the code an out-of-range uid
would raise, so every theorem that needs it carries the in-range bound.) -/
def scatterStep (N : ℕ) (uids : List ℕ) (stepW : List ℚ) : List ℚ :=
  (uids.zip stepW).foldl (fun w p => w.set p.1 p.2) (List.replicate N 0)

/-- Line 262: `new_weights /= new_weights.sum()` — an IEEE division, NaN
when the sum is zero (every entry is then `0/0`). -/
def normalizeStep (w : List ℚ) : List Fl :=
  w.map (fun x => Fl.div (Fl.val x) (Fl.val w.sum))

/-- Line 263: `pt.alpha * self.weights + (1 - pt.alpha) * new_weights`,
elementwise over the two tensors. -/
def emaStep (alpha : ℚ) (wOld wRound : List Fl) : List Fl :=
  List.zipWith (fun o r => Fl.add (Fl.smul alpha o) (Fl.smul (1 - alpha) r)) wOld wRound

/-- Lines 255-256: `step_weights`, the softmax of the round's win rates in
uid-list order (`model_weights = [win_rate[uid] for uid in uids]`; with the
duplicate-free uid list the dict lookup at `uids[i]` is the value computed
at position `i`). -/
def roundStepWeights (cfg : Cfg) (rd : RoundData) : List ℚ :=
  softmax cfg.e cfg.T ((List.range rd.uids.length).map (winRateAt rd))

/-- Lines 260-262: the round's score vector over the full population of
size `N` — the softmaxed win rates scattered into a zero vector and divided
by their sum — exactly the `new_weights` tensor that line 263 blends into
the persisted weights. -/
def roundScoreVector (cfg : Cfg) (rd : RoundData) (N : ℕ) : List Fl :=
  normalizeStep (scatterStep N rd.uids (roundStepWeights cfg rd))

/-- Lines 204-269 of `run_step` as a transition on the validator state:
score the round, update the weights (lines 259-264, ending with
`nan_to_num(0.0)`), and rebuild the evaluation pool (lines 266-269: top
`sample_min` by win rate, then the pending uids, then clear pending).
The loss computation, metadata filter and batch construction are inputs
(`RoundData`). -/
def runStepState (cfg : Cfg) (rd : RoundData) (st : VState) : VState :=
  { weights :=
      (emaStep cfg.alpha st.weights (roundScoreVector cfg rd st.weights.length)).map Fl.nanToNum
    uidsToEval := ((sortedUids rd).take cfg.sampleMin).toFinset ∪ st.pending
    pending := ∅ }

/-- Lines 182-190: `try_run_step` wraps `run_step` in `asyncio.wait_for`.
`run_step` is a coroutine whose body contains no `await` expression, so
asyncio cancellation — which can only take effect at an await point — can
only land before the body starts; the body itself (including the state
mutations of lines 259-269) runs without yielding and can never be cut in
half.  A round therefore either times out with no effect or applies the
whole transition, which the Boolean `timedOut` records. -/
def tryRunStep (cfg : Cfg) (rd : RoundData) (timedOut : Bool) (st : VState) : VState :=
  if timedOut then st else runStepState cfg rd st

/-! ### The background model-sync scheduler (`update_models`, lines 110-132) -/

/-- State of the scheduler loop: `last_uid_update` (initialized to -1, so
an integer) and the shared `self.pending_uids_to_eval`. -/
structure SchedState where
  last : ℤ
  pending : Finset ℕ
deriving DecidableEq

/-- One iteration of the `update_models` loop body.  Inputs beyond the
state: the fetched block (`try_get_block`, None on failure) and how the
external `pt.graph.sync` behaves this iteration — `syncOk` is its Boolean
result (it only selects a log message), `syncRaises` records the defensive
case that it throws (the spec contract says it never does; the code's
`except` clause would then skip the `pending` insertion but keep the loop
alive).  The second component is the uid synced this iteration, if any. -/
def schedStep (st : SchedState) (block : Option ℕ) (syncRaises _syncOk : Bool) :
    SchedState × Option ℕ :=
  match block with
  | none => (st, none)
  | some b =>
    let uid := b % 256
    if (uid : ℤ) = st.last then (st, none)
    else if syncRaises then ({ st with last := (uid : ℤ) }, some uid)
    else ({ last := (uid : ℤ), pending := insert uid st.pending }, some uid)

/-- Iterate `schedStep` over a list of (block, syncRaises, syncOk)
iteration inputs, collecting the synced uids in order. -/
def schedRun (st : SchedState) : List (Option ℕ × Bool × Bool) → SchedState × List ℕ
  | [] => (st, [])
  | (b, r, ok) :: rest =>
    match schedStep st b r ok with
    | (st1, u) =>
      match schedRun st1 rest with
      | (st2, log) => (st2, u.toList ++ log)

/-! ### The block fetcher (`try_get_block`, lines 134-152) -/

/-- How the isolated worker of `try_get_block` can end: it can still be
running when the deadline `ttl` expires (the parent terminates it), its
chain query can raise before the deadline (the worker enqueues None), or
it can fetch a block number (the worker enqueues it). -/
inductive BlockFetchOutcome where
  | timeout : BlockFetchOutcome
  | raised : BlockFetchOutcome
  | fetched : ℕ → BlockFetchOutcome
deriving DecidableEq

/-- Lines 134-152: `try_get_block` returns None when the worker is still
alive after `ttl` (it is terminated), and otherwise the queued value —
None when the worker's query raised, the block number when it fetched. -/
def tryGetBlock : BlockFetchOutcome → Option ℕ
  | .timeout => none
  | .raised => none
  | .fetched n => some n

/-! ### The spec's prescribed pool ranking -/

/-- Insert a uid into a list sorted by win rate descending with ties by
ascending uid: `u` goes before the first entry it strictly precedes in
that order. -/
def insertByRank (rd : RoundData) (u : ℕ) : List ℕ → List ℕ
  | [] => [u]
  | v :: vs =>
    if uidWR rd v < uidWR rd u ∨ (uidWR rd u = uidWR rd v ∧ u ≤ v) then u :: v :: vs
    else v :: insertByRank rd u vs

/-- Modelled from the spec's words, for comparison with the code's
`sortedUids` only: spec 4.6 prescribes ranking by win rate descending with
ties broken by ascending uid.  That order is total and antisymmetric on
distinct uids, so any sort realizes it; an insertion sort is used. -/
def sortedUidsAscTie (rd : RoundData) : List ℕ :=
  rd.uids.foldr (insertByRank rd) []

/-! ### Concrete instances used by counterexamples and witnesses -/

/-- A configuration allowed by the spec: a (trivially) positive softmax
exponential, temperature 1, EMA constant 1/2 (the spec constrains
`pt.alpha` only to [0,1)), and the default `--sample_min` of 30. -/
def exCfg : Cfg := { e := fun _ => 1, T := 1, alpha := 1 / 2, sampleMin := 30 }

/-- A one-uid round: uid 0's model is available with loss 1 on the single
batch. -/
def exRound1 : RoundData :=
  { uids := [0], timestamps := [0], modelAvailable := fun _ => true
    modelLosses := fun _ => [Fl.val 1], numBatches := 1, iswin := iswinSpec }

/-- The zero-initialized starting state of line 82 over a population of
two uids. -/
def exState0 : VState :=
  { weights := [Fl.val 0, Fl.val 0], uidsToEval := {0}, pending := ∅ }

/-- A state whose weight vector already sums to 1. -/
def exState1 : VState :=
  { weights := [Fl.val 1, Fl.val 0], uidsToEval := {0}, pending := ∅ }

/-- A state with a nonempty PendingSet. -/
def exStateP : VState :=
  { weights := [Fl.val 0, Fl.val 0], uidsToEval := {0}, pending := {7} }

/-- A two-uid round in which uid 0's model is unavailable (`load_model`
returns None) and uid 1's model has loss 1 on the single batch. -/
def exRound4 : RoundData :=
  { uids := [0, 1], timestamps := [0, 0], modelAvailable := fun u => decide (u = 1)
    modelLosses := fun _ => [Fl.val 1], numBatches := 1, iswin := iswinSpec }

/-- `--sample_min 1` with the same benign collaborators. -/
def exCfg6 : Cfg := { e := fun _ => 1, T := 1, alpha := 1 / 2, sampleMin := 1 }

/-- A round whose effective uids enumerate as [37, 5]: a possible CPython
iteration order of a set containing 37 and 5 (both hash to the same slot
of a small hash table, so whichever was inserted first is enumerated
first).  Both models are available with identical losses and equal
timestamps, so their win rates tie. -/
def exRound6 : RoundData :=
  { uids := [37, 5], timestamps := [0, 0], modelAvailable := fun _ => true
    modelLosses := fun _ => [Fl.val 1], numBatches := 1, iswin := iswinSpec }

/-- A state carrying the two tied uids of `exRound6`. -/
def exState6 : VState :=
  { weights := List.replicate 38 (Fl.val 0), uidsToEval := {37, 5}, pending := ∅ }

/-! ## Basic lemmas about the float model and list indexing -/

theorem Fl.add_val (a b : ℚ) : Fl.add (Fl.val a) (Fl.val b) = Fl.val (a + b) := rfl

theorem Fl.smul_val (c a : ℚ) : Fl.smul c (Fl.val a) = Fl.val (c * a) := rfl

theorem Fl.div_val (a b : ℚ) (hb : b ≠ 0) :
    Fl.div (Fl.val a) (Fl.val b) = Fl.val (a / b) := by
  simp [Fl.div, hb]

theorem Fl.nanToNum_val (a : ℚ) : Fl.nanToNum (Fl.val a) = Fl.val a := rfl

theorem Fl.nanToNum_ne_nan (x : Fl) : Fl.nanToNum x ≠ Fl.nan := by
  cases x <;> simp [Fl.nanToNum]

theorem sumFl_cons (x : Fl) (l : List Fl) : sumFl (x :: l) = Fl.add x (sumFl l) := rfl

theorem sumFl_map_val (l : List ℚ) : sumFl (l.map Fl.val) = Fl.val l.sum := by
  induction l with
  | nil => rfl
  | cons a l ih => simp [sumFl_cons, ih, Fl.add_val]

theorem getD_lt {α : Type} (l : List α) (d : α) (i : ℕ) (h : i < l.length) :
    l.getD i d = l[i] := by
  simp [List.getD_eq_getElem?_getD, List.getElem?_eq_getElem h]

theorem getD_map_lt {α β : Type} (f : α → β) (l : List α) (i : ℕ) (d : α) (d' : β)
    (h : i < l.length) : (l.map f).getD i d' = f (l.getD i d) := by
  rw [getD_lt _ d' i (by simpa using h), getD_lt _ d i h]
  simp

theorem getD_replicate_zero (N u : ℕ) : (List.replicate N (0 : ℚ)).getD u 0 = 0 := by
  rcases lt_or_le u N with h | h
  · rw [getD_lt _ _ _ (by simpa using h)]
    simp
  · rw [List.getD_eq_getElem?_getD, List.getElem?_eq_none (by simpa using h)]
    rfl

/-! ## Lemmas about the softmax step -/

theorem softmaxDenom_pos (e : ℚ → ℚ) (T : ℚ) (xs : List ℚ) (he : ∀ x, 0 < e x)
    (h : xs ≠ []) : 0 < softmaxDenom e T xs := by
  apply List.sum_pos
  · intro y hy
    obtain ⟨x, _, rfl⟩ := List.mem_map.mp hy
    exact he _
  · simpa using h

theorem softmax_length (e : ℚ → ℚ) (T : ℚ) (xs : List ℚ) :
    (softmax e T xs).length = xs.length := by
  simp [softmax]

theorem softmax_sum (e : ℚ → ℚ) (T : ℚ) (xs : List ℚ) (he : ∀ x, 0 < e x)
    (h : xs ≠ []) : (softmax e T xs).sum = 1 := by
  have hs := softmaxDenom_pos e T xs he h
  unfold softmax
  rw [show (fun x => e (x / T) / softmaxDenom e T xs)
        = (fun x => e (x / T) * (softmaxDenom e T xs)⁻¹) by
      funext x
      rw [div_eq_mul_inv]]
  rw [List.sum_map_mul_right]
  exact mul_inv_cancel₀ (ne_of_gt hs)

theorem softmax_getD_pos (e : ℚ → ℚ) (T : ℚ) (xs : List ℚ) (he : ∀ x, 0 < e x)
    (i : ℕ) (h : i < xs.length) : 0 < (softmax e T xs).getD i 0 := by
  unfold softmax
  rw [getD_map_lt _ _ _ 0 _ h]
  exact div_pos (he _) (softmaxDenom_pos e T xs he (by rintro rfl; simp at h))

theorem softmax_nonneg (e : ℚ → ℚ) (T : ℚ) (xs : List ℚ) (he : ∀ x, 0 < e x)
    (y : ℚ) (hy : y ∈ softmax e T xs) : 0 ≤ y := by
  obtain ⟨x, hx, rfl⟩ := List.mem_map.mp hy
  have hne : xs ≠ [] := by rintro rfl; simp at hx
  exact le_of_lt (div_pos (he _) (softmaxDenom_pos e T xs he hne))

/-! ## Lemmas about the scatter step (lines 260-261) -/

theorem getD_set_ne {α : Type} (w : List α) (i j : ℕ) (v : α) (d : α) (h : i ≠ j) :
    (w.set i v).getD j d = w.getD j d := by
  rw [List.getD_eq_getElem?_getD, List.getD_eq_getElem?_getD, List.getElem?_set_ne h]

theorem foldl_set_length (pairs : List (ℕ × ℚ)) (w : List ℚ) :
    (pairs.foldl (fun w p => w.set p.1 p.2) w).length = w.length := by
  induction pairs generalizing w with
  | nil => rfl
  | cons p pairs ih => rw [List.foldl_cons, ih, List.length_set]

theorem sum_set_lt (w : List ℚ) (i : ℕ) (v : ℚ) (h : i < w.length) :
    (w.set i v).sum = w.sum - w.getD i 0 + v := by
  induction w generalizing i with
  | nil => simp at h
  | cons a w ih =>
    cases i with
    | zero =>
      simp only [List.set_cons_zero, List.sum_cons, List.getD_cons_zero]
      ring
    | succ i =>
      simp only [List.set_cons_succ, List.sum_cons, List.getD_cons_succ]
      rw [ih i (by simpa using h)]
      ring

theorem foldl_set_getD_not_mem (pairs : List (ℕ × ℚ)) (w : List ℚ) (u : ℕ) (d : ℚ)
    (h : u ∉ pairs.map Prod.fst) :
    (pairs.foldl (fun w p => w.set p.1 p.2) w).getD u d = w.getD u d := by
  induction pairs generalizing w with
  | nil => rfl
  | cons p pairs ih =>
    simp only [List.map_cons, List.mem_cons, not_or] at h
    rw [List.foldl_cons, ih _ h.2, getD_set_ne _ _ _ _ _ (Ne.symm h.1)]

theorem foldl_set_getD_mem (pairs : List (ℕ × ℚ)) (w : List ℚ) (u : ℕ) (v : ℚ)
    (hnd : (pairs.map Prod.fst).Nodup)
    (hmem : (u, v) ∈ pairs) (hb : u < w.length) :
    (pairs.foldl (fun w p => w.set p.1 p.2) w).getD u 0 = v := by
  induction pairs generalizing w with
  | nil => simp at hmem
  | cons p pairs ih =>
    simp only [List.map_cons, List.nodup_cons] at hnd
    rcases List.mem_cons.mp hmem with heq | htail
    · cases heq
      rw [List.foldl_cons, foldl_set_getD_not_mem _ _ _ _ hnd.1]
      rw [List.getD_eq_getElem?_getD, List.getElem?_set_self (by simpa using hb)]
      rfl
    · rw [List.foldl_cons]
      exact ih _ hnd.2 htail (by rw [List.length_set]; exact hb)

theorem foldl_set_sum (pairs : List (ℕ × ℚ)) (w : List ℚ)
    (hnd : (pairs.map Prod.fst).Nodup)
    (hb : ∀ p ∈ pairs, p.1 < w.length)
    (hz : ∀ p ∈ pairs, w.getD p.1 0 = 0) :
    (pairs.foldl (fun w p => w.set p.1 p.2) w).sum = w.sum + (pairs.map Prod.snd).sum := by
  induction pairs generalizing w with
  | nil => simp
  | cons p pairs ih =>
    simp only [List.map_cons, List.nodup_cons] at hnd
    rw [List.foldl_cons, ih _ hnd.2 ?_ ?_]
    · rw [sum_set_lt w p.1 p.2 (hb p (by simp)), hz p (by simp)]
      simp only [List.map_cons, List.sum_cons]
      ring
    · intro q hq
      rw [List.length_set]
      exact hb q (List.mem_cons_of_mem _ hq)
    · intro q hq
      have hne : q.1 ≠ p.1 := by
        intro hcontra
        exact hnd.1 (hcontra ▸ List.mem_map.mpr ⟨q, hq, rfl⟩)
      rw [getD_set_ne _ _ _ _ _ (Ne.symm hne)]
      exact hz q (List.mem_cons_of_mem _ hq)

theorem scatterStep_length (N : ℕ) (uids : List ℕ) (stepW : List ℚ) :
    (scatterStep N uids stepW).length = N := by
  unfold scatterStep
  rw [foldl_set_length, List.length_replicate]

theorem scatterStep_sum (N : ℕ) (uids : List ℕ) (stepW : List ℚ)
    (hnd : uids.Nodup) (hlen : uids.length = stepW.length)
    (hb : ∀ u ∈ uids, u < N) :
    (scatterStep N uids stepW).sum = stepW.sum := by
  unfold scatterStep
  have hfst : (uids.zip stepW).map Prod.fst = uids :=
    List.map_fst_zip _ _ (le_of_eq hlen)
  have hsnd : (uids.zip stepW).map Prod.snd = stepW :=
    List.map_snd_zip _ _ (le_of_eq hlen.symm)
  rw [foldl_set_sum]
  · rw [hsnd]
    simp
  · rw [hfst]
    exact hnd
  · intro p hp
    have hmem : p.1 ∈ uids := by
      rw [← hfst]
      exact List.mem_map.mpr ⟨p, hp, rfl⟩
    rw [List.length_replicate]
    exact hb _ hmem
  · intro p _
    exact getD_replicate_zero N p.1

theorem scatterStep_getD (N : ℕ) (uids : List ℕ) (stepW : List ℚ) (i : ℕ)
    (hnd : uids.Nodup) (hlen : uids.length = stepW.length)
    (hi : i < uids.length) (hb : uids.getD i 0 < N) :
    (scatterStep N uids stepW).getD (uids.getD i 0) 0 = stepW.getD i 0 := by
  unfold scatterStep
  apply foldl_set_getD_mem
  · rw [List.map_fst_zip _ _ (le_of_eq hlen)]
    exact hnd
  · have h2 : i < stepW.length := hlen ▸ hi
    rw [getD_lt _ _ _ hi, getD_lt _ _ _ h2]
    have hz : (uids.zip stepW)[i]? = some (uids[i], stepW[i]) := by
      rw [List.getElem?_zip_eq_some]
      exact ⟨List.getElem?_eq_getElem hi, List.getElem?_eq_getElem h2⟩
    exact List.getElem?_mem hz
  · rw [List.length_replicate]
    exact hb

/-! ## Lemmas about the normalize and EMA steps (lines 262-264) -/

theorem normalizeStep_of_sum_one (w : List ℚ) (h : w.sum = 1) :
    normalizeStep w = w.map Fl.val := by
  unfold normalizeStep
  rw [h]
  have hdiv : ∀ x : ℚ, Fl.div (Fl.val x) (Fl.val 1) = Fl.val x := by
    intro x
    rw [Fl.div_val x 1 one_ne_zero, div_one]
  simp only [hdiv]

theorem emaStep_map_val (alpha : ℚ) (W R : List ℚ) :
    emaStep alpha (W.map Fl.val) (R.map Fl.val)
      = (List.zipWith (fun o r => alpha * o + (1 - alpha) * r) W R).map Fl.val := by
  unfold emaStep
  induction W generalizing R with
  | nil => simp
  | cons a W ih =>
    cases R with
    | nil => simp
    | cons b R =>
      simp only [List.map_cons, List.zipWith_cons_cons, Fl.smul_val, Fl.add_val, ih]

theorem zipWith_affine_sum (alpha : ℚ) (W R : List ℚ) (h : W.length = R.length) :
    (List.zipWith (fun o r => alpha * o + (1 - alpha) * r) W R).sum
      = alpha * W.sum + (1 - alpha) * R.sum := by
  induction W generalizing R with
  | nil =>
    cases R with
    | nil => simp
    | cons b R => simp at h
  | cons a W ih =>
    cases R with
    | nil => simp at h
    | cons b R =>
      simp only [List.zipWith_cons_cons, List.sum_cons]
      rw [ih R (by simpa using h)]
      ring

theorem map_nanToNum_map_val (l : List ℚ) :
    (l.map Fl.val).map Fl.nanToNum = l.map Fl.val := by
  induction l with
  | nil => rfl
  | cons a l ih => simp only [List.map_cons, Fl.nanToNum_val, ih]

/-! ## Lemmas about the tournament scorer (lines 238-253) -/

theorem range_sum_const (k m : ℕ) : ((List.range k).map (fun _ => m)).sum = k * m := by
  induction k with
  | zero => simp
  | succ k ih =>
    rw [List.range_succ, List.map_append, List.sum_append, ih]
    simp only [List.map_cons, List.map_nil, List.sum_cons, List.sum_nil]
    ring

theorem range_sum_ite_ne (k i m : ℕ) (h : i < k) :
    ((List.range k).map (fun j => if j = i then 0 else m)).sum = (k - 1) * m := by
  induction k with
  | zero => omega
  | succ k ih =>
    rw [List.range_succ, List.map_append, List.sum_append]
    rcases Nat.lt_succ_iff_lt_or_eq.mp h with h' | rfl
    · rw [ih h']
      have hki : k ≠ i := by omega
      simp only [List.map_cons, List.map_nil, List.sum_cons, List.sum_nil, hki, if_false]
      obtain ⟨k', rfl⟩ : ∃ k', k = k' + 1 := ⟨k - 1, by omega⟩
      simp only [Nat.add_sub_cancel]
      ring
    · have hall : ((List.range i).map (fun j => if j = i then 0 else m))
          = (List.range i).map (fun _ => m) := by
        apply List.map_congr_left
        intro j hj
        have hj' : j < i := List.mem_range.mp hj
        simp [Nat.ne_of_lt hj']
      rw [hall, range_sum_const]
      simp

theorem totalMatchesAt_eq (rd : RoundData) (i : ℕ) (h : i < rd.uids.length) :
    totalMatchesAt rd i = (rd.uids.length - 1) * rd.numBatches := by
  unfold totalMatchesAt
  exact range_sum_ite_ne _ _ _ h

theorem winsAt_le_totalMatchesAt (rd : RoundData) (i : ℕ) :
    winsAt rd i ≤ totalMatchesAt rd i := by
  unfold winsAt totalMatchesAt
  apply List.sum_le_sum
  intro j _
  by_cases hji : j = i
  · simp [hji]
  · rw [if_neg hji, if_neg hji]
    calc ((List.range rd.numBatches).map (fun b =>
            if rd.iswin (lossAt rd i b) (lossAt rd j b)
              (rd.timestamps.getD i 0) (rd.timestamps.getD j 0) then 1 else 0)).sum
        ≤ ((List.range rd.numBatches).map (fun _ => 1)).sum := by
          apply List.sum_le_sum
          intro b _
          split <;> omega
      _ = rd.numBatches := by rw [range_sum_const, Nat.mul_one]

theorem winRateAt_nonneg (rd : RoundData) (i : ℕ) : 0 ≤ winRateAt rd i := by
  unfold winRateAt
  split
  · exact div_nonneg (Nat.cast_nonneg _) (Nat.cast_nonneg _)
  · exact le_refl 0

theorem winRateAt_le_one (rd : RoundData) (i : ℕ) : winRateAt rd i ≤ 1 := by
  unfold winRateAt
  split
  · rename_i h
    rw [div_le_one (by exact_mod_cast h)]
    exact_mod_cast winsAt_le_totalMatchesAt rd i
  · exact zero_le_one

theorem lossesPerUid_unavailable (rd : RoundData) (u : ℕ)
    (h : rd.modelAvailable u = false) :
    lossesPerUid rd u = List.replicate rd.numBatches Fl.inf := by
  simp [lossesPerUid, h]

theorem lossAt_unavailable (rd : RoundData) (i b : ℕ)
    (h : rd.modelAvailable (rd.uids.getD i 0) = false) (hb : b < rd.numBatches) :
    lossAt rd i b = Fl.inf := by
  unfold lossAt
  rw [lossesPerUid_unavailable rd _ h, getD_lt _ _ _ (by simpa using hb)]
  simp

theorem winsAt_eq_zero_of_unavailable (rd : RoundData) (i : ℕ)
    (h : rd.modelAvailable (rd.uids.getD i 0) = false)
    (hiswin : ∀ y tA tB, rd.iswin Fl.inf y tA tB = false) :
    winsAt rd i = 0 := by
  unfold winsAt
  apply List.sum_eq_zero
  intro x hx
  obtain ⟨j, _, rfl⟩ := List.mem_map.mp hx
  by_cases hji : j = i
  · simp [hji]
  · rw [if_neg hji]
    apply List.sum_eq_zero
    intro y hy
    obtain ⟨b, hb, rfl⟩ := List.mem_map.mp hy
    rw [lossAt_unavailable rd i b h (List.mem_range.mp hb), hiswin]
    rfl

theorem winRateAt_of_wins_zero (rd : RoundData) (i : ℕ) (h : winsAt rd i = 0) :
    winRateAt rd i = 0 := by
  unfold winRateAt
  rw [h]
  split <;> simp

/-! ## Lemmas about the pool ranking (line 267) -/

theorem uidWR_decide_trans (rd : RoundData) (a b c : ℕ)
    (hab : decide (uidWR rd b ≤ uidWR rd a) = true)
    (hbc : decide (uidWR rd c ≤ uidWR rd b) = true) :
    decide (uidWR rd c ≤ uidWR rd a) = true := by
  simp only [decide_eq_true_eq] at hab hbc ⊢
  exact le_trans hbc hab

theorem uidWR_decide_total (rd : RoundData) (a b : ℕ) :
    (decide (uidWR rd b ≤ uidWR rd a) || decide (uidWR rd a ≤ uidWR rd b)) = true := by
  simpa using le_total (uidWR rd b) (uidWR rd a)

theorem sortedUids_perm (rd : RoundData) : (sortedUids rd).Perm rd.uids :=
  List.mergeSort_perm rd.uids _

theorem sortedUids_pairwise (rd : RoundData) :
    (sortedUids rd).Pairwise (fun a b => uidWR rd b ≤ uidWR rd a) := by
  unfold sortedUids
  have h := List.sorted_mergeSort (uidWR_decide_trans rd) (uidWR_decide_total rd) rd.uids
  exact h.imp (fun hab => by simpa using hab)

theorem pairwise_take_drop {α : Type} (R : α → α → Prop) (l : List α) (n : ℕ)
    (h : l.Pairwise R) : ∀ u ∈ l.take n, ∀ v ∈ l.drop n, R u v := by
  rw [← List.take_append_drop n l] at h
  exact (List.pairwise_append.mp h).2.2

theorem sortedUids_topk (rd : RoundData) (n : ℕ) :
    ∀ u ∈ (sortedUids rd).take n, ∀ v ∈ rd.uids,
      v ∉ (sortedUids rd).take n → uidWR rd v ≤ uidWR rd u := by
  intro u hu v hv hvn
  have hvs : v ∈ sortedUids rd := ((sortedUids_perm rd).mem_iff).mpr hv
  rw [← List.take_append_drop n (sortedUids rd)] at hvs
  rcases List.mem_append.mp hvs with h' | h'
  · exact absurd h' hvn
  · exact pairwise_take_drop _ _ n (sortedUids_pairwise rd) u hu v h'

theorem sortedUids_stable (rd : RoundData) (u v : ℕ) (hle : uidWR rd v ≤ uidWR rd u)
    (hsub : List.Sublist [u, v] rd.uids) : List.Sublist [u, v] (sortedUids rd) := by
  unfold sortedUids
  exact List.pair_sublist_mergeSort (uidWR_decide_trans rd) (uidWR_decide_total rd)
    (decide_eq_true hle) hsub

/-! ## Lemmas about the round score vector (lines 255-262) -/

theorem roundStepWeights_length (cfg : Cfg) (rd : RoundData) :
    (roundStepWeights cfg rd).length = rd.uids.length := by
  unfold roundStepWeights
  rw [softmax_length, List.length_map, List.length_range]

theorem range_winRate_ne_nil (rd : RoundData) (hne : rd.uids ≠ []) :
    (List.range rd.uids.length).map (winRateAt rd) ≠ [] := by
  intro hnil
  apply hne
  have hlen := congrArg List.length hnil
  simp only [List.length_map, List.length_range, List.length_nil] at hlen
  exact List.length_eq_zero.mp hlen

theorem roundStepWeights_sum (cfg : Cfg) (rd : RoundData) (he : ∀ x, 0 < cfg.e x)
    (hne : rd.uids ≠ []) : (roundStepWeights cfg rd).sum = 1 :=
  softmax_sum _ _ _ he (range_winRate_ne_nil rd hne)

theorem scatter_roundStepWeights_sum (cfg : Cfg) (rd : RoundData) (N : ℕ)
    (he : ∀ x, 0 < cfg.e x) (hne : rd.uids ≠ []) (hnd : rd.uids.Nodup)
    (hb : ∀ u ∈ rd.uids, u < N) :
    (scatterStep N rd.uids (roundStepWeights cfg rd)).sum = 1 := by
  rw [scatterStep_sum _ _ _ hnd (roundStepWeights_length cfg rd).symm hb,
      roundStepWeights_sum cfg rd he hne]

theorem roundScoreVector_eq_map_val (cfg : Cfg) (rd : RoundData) (N : ℕ)
    (he : ∀ x, 0 < cfg.e x) (hne : rd.uids ≠ []) (hnd : rd.uids.Nodup)
    (hb : ∀ u ∈ rd.uids, u < N) :
    roundScoreVector cfg rd N
      = (scatterStep N rd.uids (roundStepWeights cfg rd)).map Fl.val := by
  unfold roundScoreVector
  exact normalizeStep_of_sum_one _ (scatter_roundStepWeights_sum cfg rd N he hne hnd hb)

/-! ## Claim C1 -/

/-- C1 is false as stated: on the very first round, which starts from the
zero-initialized weight vector of line 82, a successful `run_step` with
one effective uid and the spec-allowed EMA constant α = 1/2 persists a
WeightVector summing to 1/2, not 1. -/
theorem claim1_counterexample :
    sumFl (runStepState exCfg exRound1 exState0).weights = Fl.val (1 / 2) ∧
    sumFl (runStepState exCfg exRound1 exState0).weights ≠ Fl.val 1 := by
  have h : sumFl (runStepState exCfg exRound1 exState0).weights = Fl.val (1 / 2) := by
    norm_num [runStepState, roundScoreVector, roundStepWeights, softmax, softmaxDenom,
      winRateAt, totalMatchesAt, winsAt, lossAt, lossesPerUid, iswinSpec, Fl.lt,
      exCfg, exRound1, exState0,
      scatterStep, normalizeStep, emaStep, sumFl, Fl.add, Fl.smul, Fl.div, Fl.nanToNum,
      List.range_succ, List.range_zero, List.map_cons, List.map_nil, List.map_append,
      List.sum_cons, List.sum_nil, List.sum_append, List.replicate_succ,
      List.set_cons_zero, List.set_cons_succ, List.zipWith_cons_cons,
      List.foldl_cons, List.foldl_nil, List.foldr_cons, List.foldr_nil,
      List.zip_cons_cons, List.getD_cons_zero, List.getD_cons_succ]
  refine ⟨h, ?_⟩
  rw [h]
  intro hcontra
  have : (1 / 2 : ℚ) = 1 := Fl.val.inj hcontra
  norm_num at this

/-- C1 (amended): after a successful `run_step` pass with at least one
effective uid, the persisted WeightVector contains no NaN entry and its
sum is `α·(sum of the previous vector) + (1-α)`.  It therefore sums to 1
exactly when the previous vector already summed to 1; starting from the
zero-initialized vector the first round yields sum `1-α`, not 1. -/
theorem claim1_amended_sum_after_round (cfg : Cfg) (rd : RoundData) (W : List ℚ)
    (st : VState)
    (he : ∀ x, 0 < cfg.e x)
    (hne : rd.uids ≠ [])
    (hnd : rd.uids.Nodup)
    (hb : ∀ u ∈ rd.uids, u < W.length)
    (hw : st.weights = W.map Fl.val) :
    sumFl (runStepState cfg rd st).weights
        = Fl.val (cfg.alpha * W.sum + (1 - cfg.alpha)) ∧
    ∀ x ∈ (runStepState cfg rd st).weights, x ≠ Fl.nan := by
  have hproj : (runStepState cfg rd st).weights
      = (emaStep cfg.alpha st.weights
          (roundScoreVector cfg rd st.weights.length)).map Fl.nanToNum := rfl
  have hsc_sum : (scatterStep W.length rd.uids (roundStepWeights cfg rd)).sum = 1 :=
    scatter_roundStepWeights_sum cfg rd _ he hne hnd hb
  have hscore := roundScoreVector_eq_map_val cfg rd W.length he hne hnd hb
  have hsc_len : (scatterStep W.length rd.uids (roundStepWeights cfg rd)).length
      = W.length := scatterStep_length _ _ _
  constructor
  · rw [hproj, hw, List.length_map, hscore, emaStep_map_val, map_nanToNum_map_val,
        sumFl_map_val,
        zipWith_affine_sum cfg.alpha W
          (scatterStep W.length rd.uids (roundStepWeights cfg rd)) hsc_len.symm,
        hsc_sum, mul_one]
  · intro x hx
    rw [hproj] at hx
    obtain ⟨y, _, rfl⟩ := List.mem_map.mp hx
    exact Fl.nanToNum_ne_nan y

/-- Witness for C1 (amended) at a concrete input: the previous vector
[1, 0] sums to 1 and the one-uid round keeps the sum at
α·1 + (1-α) = 1. -/
theorem claim1_amended_witness :
    sumFl (runStepState exCfg exRound1 exState1).weights
        = Fl.val (exCfg.alpha * ([1, 0] : List ℚ).sum + (1 - exCfg.alpha)) ∧
    ∀ x ∈ (runStepState exCfg exRound1 exState1).weights, x ≠ Fl.nan :=
  claim1_amended_sum_after_round exCfg exRound1 [1, 0] exState1
    (fun _ => one_pos) (by decide) (by decide) (by decide) rfl

/-! ## Claim C2 -/

/-- C2: when the round deadline elapses, the round is abandoned as a
whole: the persisted WeightVector, the ActiveSet and the PendingSet are
exactly the values from before the round, and no loss record of the round
is merged into any state.  (`run_step` is a coroutine with no internal
await point, so asyncio cancellation can only land before its body runs;
`tryRunStep` records the timeout as a Boolean.) -/
theorem claim2_timeout_round_leaves_state_unchanged (cfg : Cfg) (rd : RoundData)
    (st : VState) :
    tryRunStep cfg rd true st = st ∧
    (tryRunStep cfg rd true st).weights = st.weights ∧
    (tryRunStep cfg rd true st).uidsToEval = st.uidsToEval ∧
    (tryRunStep cfg rd true st).pending = st.pending :=
  ⟨rfl, rfl, rfl, rfl⟩

/-! ## Claim C3 -/

/-- C3: after the merge at the end of `run_step`, every uid of the
PendingSet is in the next ActiveSet regardless of rank, the next ActiveSet
has at most `sample_min + |PendingSet|` elements, and the PendingSet is
empty. -/
theorem claim3_pending_merge_invariants (cfg : Cfg) (rd : RoundData) (st : VState) :
    (∀ u ∈ st.pending, u ∈ (runStepState cfg rd st).uidsToEval) ∧
    (runStepState cfg rd st).uidsToEval.card ≤ cfg.sampleMin + st.pending.card ∧
    (runStepState cfg rd st).pending = ∅ := by
  refine ⟨?_, ?_, rfl⟩
  · intro u hu
    exact Finset.mem_union_right _ hu
  · calc (((sortedUids rd).take cfg.sampleMin).toFinset ∪ st.pending).card
        ≤ ((sortedUids rd).take cfg.sampleMin).toFinset.card + st.pending.card :=
          Finset.card_union_le _ _
      _ ≤ cfg.sampleMin + st.pending.card := by
          apply Nat.add_le_add_right
          calc ((sortedUids rd).take cfg.sampleMin).toFinset.card
              ≤ ((sortedUids rd).take cfg.sampleMin).length := List.toFinset_card_le _
            _ ≤ cfg.sampleMin := List.length_take_le _ _

/-- Witness for C3 at a concrete state with pending uid 7. -/
theorem claim3_witness :
    (∀ u ∈ exStateP.pending, u ∈ (runStepState exCfg exRound1 exStateP).uidsToEval) ∧
    (runStepState exCfg exRound1 exStateP).uidsToEval.card
        ≤ exCfg.sampleMin + exStateP.pending.card ∧
    (runStepState exCfg exRound1 exStateP).pending = ∅ :=
  claim3_pending_merge_invariants exCfg exRound1 exStateP

/-! ## Claim C4 -/

/-- C4 is false in its last part: a candidate whose model is unavailable
does get all-infinite losses and zero wins, but its entry in the round's
score vector (the softmaxed win rates scattered into the full-length
vector, line 261-262, just before the EMA blend) is the softmax share of a
zero win rate — 1/2 in this two-uid round — which is not 0. -/
theorem claim4_counterexample :
    exRound4.modelAvailable 0 = false ∧
    winsAt exRound4 0 = 0 ∧
    (roundScoreVector exCfg exRound4 2).getD 0 Fl.nan = Fl.val (1 / 2) ∧
    (roundScoreVector exCfg exRound4 2).getD 0 Fl.nan ≠ Fl.val 0 := by
  have h3 : (roundScoreVector exCfg exRound4 2).getD 0 Fl.nan = Fl.val (1 / 2) := by
    norm_num [roundScoreVector, roundStepWeights, softmax, softmaxDenom,
      winRateAt, totalMatchesAt, winsAt, lossAt, lossesPerUid, iswinSpec, Fl.lt,
      exCfg, exRound4, scatterStep, normalizeStep, Fl.div,
      List.range_succ, List.range_zero, List.map_cons, List.map_nil,
      List.sum_cons, List.sum_nil, List.replicate_succ,
      List.set_cons_zero, List.set_cons_succ,
      List.foldl_cons, List.foldl_nil,
      List.zip_cons_cons, List.getD_cons_zero, List.getD_cons_succ]
  refine ⟨by decide, ?_, h3, ?_⟩
  · norm_num [winsAt, lossAt, lossesPerUid, iswinSpec, Fl.lt, exRound4,
      List.range_succ, List.range_zero, List.map_cons, List.map_nil,
      List.sum_cons, List.sum_nil, List.replicate_succ,
      List.getD_cons_zero, List.getD_cons_succ]
  · rw [h3]
    intro hcontra
    have := Fl.val.inj hcontra
    norm_num at this

/-- C4 (amended): in every round, a candidate at position `i` whose model
is unavailable gets a sentinel loss of +inf for every batch, ends the
round with zero wins and zero win rate — under the comparator contract
that an infinite loss never wins — and its entry in the round's score
vector is the strictly positive softmax share of a zero win rate, not 0. -/
theorem claim4_amended_unavailable_model (cfg : Cfg) (rd : RoundData) (N i : ℕ)
    (hi : i < rd.uids.length)
    (hunavail : rd.modelAvailable (rd.uids.getD i 0) = false)
    (hiswin : ∀ y tA tB, rd.iswin Fl.inf y tA tB = false)
    (he : ∀ x, 0 < cfg.e x)
    (hnd : rd.uids.Nodup)
    (hb : ∀ u ∈ rd.uids, u < N) :
    lossesPerUid rd (rd.uids.getD i 0) = List.replicate rd.numBatches Fl.inf ∧
    winsAt rd i = 0 ∧
    winRateAt rd i = 0 ∧
    ∃ q : ℚ, 0 < q ∧
      (roundScoreVector cfg rd N).getD (rd.uids.getD i 0) Fl.nan = Fl.val q := by
  have hne : rd.uids ≠ [] := by
    intro hnil
    rw [hnil] at hi
    simp at hi
  refine ⟨lossesPerUid_unavailable rd _ hunavail,
    winsAt_eq_zero_of_unavailable rd i hunavail hiswin,
    winRateAt_of_wins_zero rd i (winsAt_eq_zero_of_unavailable rd i hunavail hiswin), ?_⟩
  refine ⟨(roundStepWeights cfg rd).getD i 0, ?_, ?_⟩
  · unfold roundStepWeights
    exact softmax_getD_pos _ _ _ he i (by simpa using hi)
  · rw [roundScoreVector_eq_map_val cfg rd N he hne hnd hb]
    have hu_mem : rd.uids.getD i 0 ∈ rd.uids := by
      rw [getD_lt _ _ _ hi]
      exact List.getElem_mem hi
    have huN : rd.uids.getD i 0 < N := hb _ hu_mem
    have hsc_len : (scatterStep N rd.uids (roundStepWeights cfg rd)).length = N :=
      scatterStep_length _ _ _
    rw [getD_map_lt Fl.val _ _ 0 Fl.nan (by rw [hsc_len]; exact huN)]
    rw [scatterStep_getD N rd.uids _ i hnd (roundStepWeights_length cfg rd).symm hi huN]

/-- Witness for C4 (amended) at the concrete two-uid round of
`exRound4`. -/
theorem claim4_amended_witness :
    lossesPerUid exRound4 (exRound4.uids.getD 0 0)
        = List.replicate exRound4.numBatches Fl.inf ∧
    winsAt exRound4 0 = 0 ∧
    winRateAt exRound4 0 = 0 ∧
    ∃ q : ℚ, 0 < q ∧
      (roundScoreVector exCfg exRound4 2).getD (exRound4.uids.getD 0 0) Fl.nan = Fl.val q :=
  claim4_amended_unavailable_model exCfg exRound4 2 0 (by decide) (by decide)
    (by intro y tA tB; cases y <;> rfl) (fun _ => one_pos) (by decide) (by decide)

/-! ## Claim C5 -/

/-- C5: for every round and every effective uid position `i`, the win rate
lies in [0,1], the total match count is `(k-1)·numBatches` (k the count of
effective uids), the win rate equals wins divided by total matches when
the latter is positive, and it is 0 — with no division performed — when
the total match count is 0. -/
theorem claim5_winrate_bounds (rd : RoundData) (i : ℕ) (h : i < rd.uids.length) :
    0 ≤ winRateAt rd i ∧ winRateAt rd i ≤ 1 ∧
    totalMatchesAt rd i = (rd.uids.length - 1) * rd.numBatches ∧
    (0 < totalMatchesAt rd i →
      winRateAt rd i = (winsAt rd i : ℚ) / (totalMatchesAt rd i : ℚ)) ∧
    (totalMatchesAt rd i = 0 → winRateAt rd i = 0) := by
  refine ⟨winRateAt_nonneg rd i, winRateAt_le_one rd i, totalMatchesAt_eq rd i h, ?_, ?_⟩
  · intro ht
    unfold winRateAt
    rw [if_pos ht]
  · intro ht
    unfold winRateAt
    rw [ht]
    norm_num

/-- Witness for C5 at position 1 of the concrete round `exRound4`. -/
theorem claim5_witness :
    0 ≤ winRateAt exRound4 1 ∧ winRateAt exRound4 1 ≤ 1 ∧
    totalMatchesAt exRound4 1 = (exRound4.uids.length - 1) * exRound4.numBatches ∧
    (0 < totalMatchesAt exRound4 1 →
      winRateAt exRound4 1 = (winsAt exRound4 1 : ℚ) / (totalMatchesAt exRound4 1 : ℚ)) ∧
    (totalMatchesAt exRound4 1 = 0 → winRateAt exRound4 1 = 0) :=
  claim5_winrate_bounds exRound4 1 (by decide)

/-! ## Claim C6 -/

/-- C6 is false in its tie-break part: with the effective uids enumerated
as [37, 5] (a possible Python set iteration order) and both win rates
tied, `run_step` keeps uid 37 — the stable sort preserves the enumeration
order — while the spec's ranking (descending win rate, ties by ascending
uid) prescribes uid 5. -/
theorem claim6_counterexample :
    (runStepState exCfg6 exRound6 exState6).uidsToEval = {37} ∧
    ((sortedUidsAscTie exRound6).take exCfg6.sampleMin).toFinset ∪ exState6.pending
        = {5} ∧
    (runStepState exCfg6 exRound6 exState6).uidsToEval
      ≠ ((sortedUidsAscTie exRound6).take exCfg6.sampleMin).toFinset ∪ exState6.pending := by
  have hwr37 : uidWR exRound6 37 = 0 := by
    norm_num [uidWR, winRateAt, totalMatchesAt, winsAt, lossAt, lossesPerUid,
      iswinSpec, Fl.lt, exRound6, List.indexOf, List.findIdx_cons,
      List.range_succ, List.range_zero, List.map_cons, List.map_nil,
      List.sum_cons, List.sum_nil, List.getD_cons_zero, List.getD_cons_succ]
  have hwr5 : uidWR exRound6 5 = 0 := by
    norm_num [uidWR, winRateAt, totalMatchesAt, winsAt, lossAt, lossesPerUid,
      iswinSpec, Fl.lt, exRound6, List.indexOf, List.findIdx_cons,
      List.range_succ, List.range_zero, List.map_cons, List.map_nil,
      List.sum_cons, List.sum_nil, List.getD_cons_zero, List.getD_cons_succ]
  have hsorted : sortedUids exRound6 = [37, 5] := by
    unfold sortedUids
    apply List.mergeSort_of_sorted
    apply List.pairwise_cons.mpr
    refine ⟨?_, List.pairwise_singleton _ _⟩
    intro b hb
    rw [List.mem_singleton] at hb
    subst hb
    rw [decide_eq_true_eq, hwr37, hwr5]
  have hasc : sortedUidsAscTie exRound6 = [5, 37] := by
    have hcond : ¬(uidWR exRound6 5 < uidWR exRound6 37 ∨
        (uidWR exRound6 37 = uidWR exRound6 5 ∧ 37 ≤ 5)) := by
      rw [hwr37, hwr5]
      norm_num
    show (exRound6.uids.foldr (insertByRank exRound6) []) = [5, 37]
    rw [show exRound6.uids = [37, 5] from rfl, List.foldr_cons, List.foldr_cons,
        List.foldr_nil]
    rw [show insertByRank exRound6 5 [] = [5] from rfl]
    rw [insertByRank, if_neg hcond]
    rfl
  have hproj : (runStepState exCfg6 exRound6 exState6).uidsToEval
      = ((sortedUids exRound6).take exCfg6.sampleMin).toFinset ∪ exState6.pending := rfl
  refine ⟨?_, ?_, ?_⟩
  · rw [hproj, hsorted]
    decide
  · rw [hasc]
    decide
  · rw [hproj, hsorted, hasc]
    decide

/-- C6 (amended): the non-pending part of the next ActiveSet is the first
`sample_min` entries of the stable descending sort of the round's uid
enumeration by win rate: it is a top-`sample_min` set (every selected uid's
win rate is at least every unselected effective uid's), and ties keep the
enumeration order of the round's uid list — which the code draws from a
Python set with no ordering guarantee, so ties are not necessarily broken
by ascending uid. -/
theorem claim6_amended_pool_ranking (cfg : Cfg) (rd : RoundData) (st : VState) :
    (runStepState cfg rd st).uidsToEval
        = ((sortedUids rd).take cfg.sampleMin).toFinset ∪ st.pending ∧
    (sortedUids rd).Perm rd.uids ∧
    (∀ u ∈ (sortedUids rd).take cfg.sampleMin, ∀ v ∈ rd.uids,
        v ∉ (sortedUids rd).take cfg.sampleMin → uidWR rd v ≤ uidWR rd u) ∧
    (∀ u v : ℕ, uidWR rd v ≤ uidWR rd u → List.Sublist [u, v] rd.uids →
        List.Sublist [u, v] (sortedUids rd)) :=
  ⟨rfl, sortedUids_perm rd, sortedUids_topk rd _, fun u v => sortedUids_stable rd u v⟩

/-- Witness for C6 (amended) at the concrete tied round `exRound6`. -/
theorem claim6_amended_witness :
    (runStepState exCfg6 exRound6 exState6).uidsToEval
        = ((sortedUids exRound6).take exCfg6.sampleMin).toFinset ∪ exState6.pending ∧
    (sortedUids exRound6).Perm exRound6.uids ∧
    (∀ u ∈ (sortedUids exRound6).take exCfg6.sampleMin, ∀ v ∈ exRound6.uids,
        v ∉ (sortedUids exRound6).take exCfg6.sampleMin →
          uidWR exRound6 v ≤ uidWR exRound6 u) ∧
    (∀ u v : ℕ, uidWR exRound6 v ≤ uidWR exRound6 u →
        List.Sublist [u, v] exRound6.uids → List.Sublist [u, v] (sortedUids exRound6)) :=
  claim6_amended_pool_ranking exCfg6 exRound6 exState6

/-! ## Claim C7 -/

/-- C7: line 263 computes the elementwise EMA blend
`W_new = α·W_old + (1-α)·W_round` for every pair of (finite-valued) old
and round vectors of equal length; with α = 1 the persisted vector is left
unchanged, and with α = 0 it is fully replaced by the round vector. -/
theorem claim7_ema_blend (alpha : ℚ) (W R : List ℚ) (h : W.length = R.length) :
    emaStep alpha (W.map Fl.val) (R.map Fl.val)
        = (List.zipWith (fun o r => alpha * o + (1 - alpha) * r) W R).map Fl.val ∧
    (emaStep 1 (W.map Fl.val) (R.map Fl.val)).map Fl.nanToNum = W.map Fl.val ∧
    (emaStep 0 (W.map Fl.val) (R.map Fl.val)).map Fl.nanToNum = R.map Fl.val := by
  refine ⟨emaStep_map_val alpha W R, ?_, ?_⟩
  · rw [emaStep_map_val, map_nanToNum_map_val]
    congr 1
    induction W generalizing R with
    | nil => simp
    | cons a W ih =>
      cases R with
      | nil => simp at h
      | cons b R =>
        simp only [List.zipWith_cons_cons]
        rw [ih R (by simpa using h)]
        norm_num
  · rw [emaStep_map_val, map_nanToNum_map_val]
    congr 1
    induction W generalizing R with
    | nil =>
      cases R with
      | nil => simp
      | cons b R => simp at h
    | cons a W ih =>
      cases R with
      | nil => simp at h
      | cons b R =>
        simp only [List.zipWith_cons_cons]
        rw [ih R (by simpa using h)]
        norm_num

/-- Witness for C7 at α = 1/3 with the one-entry vectors [2] and [4]. -/
theorem claim7_witness :
    emaStep (1 / 3) (([2] : List ℚ).map Fl.val) (([4] : List ℚ).map Fl.val)
        = (List.zipWith (fun o r => (1 / 3 : ℚ) * o + (1 - 1 / 3) * r) [2] [4]).map Fl.val ∧
    (emaStep 1 (([2] : List ℚ).map Fl.val) (([4] : List ℚ).map Fl.val)).map Fl.nanToNum
        = ([2] : List ℚ).map Fl.val ∧
    (emaStep 0 (([2] : List ℚ).map Fl.val) (([4] : List ℚ).map Fl.val)).map Fl.nanToNum
        = ([4] : List ℚ).map Fl.val :=
  claim7_ema_blend (1 / 3) [2] [4] rfl

/-! ## Claim C8 -/

/-- C8: in the `update_models` loop, an iteration whose slot equals the
previous iteration's slot performs no sync and leaves the state (including
the PendingSet) untouched; on the slot sequence [5, 5, 6] exactly slot 5
and then slot 6 are synced, each added to the PendingSet once. -/
theorem claim8_scheduler_skips_duplicate_slot (P : Finset ℕ) :
    schedRun { last := -1, pending := P }
        [(some 5, false, true), (some 5, false, true), (some 6, false, true)]
      = ({ last := 6, pending := insert 6 (insert 5 P) }, [5, 6]) ∧
    schedStep { last := 5, pending := insert 5 P } (some 5) false true
      = ({ last := 5, pending := insert 5 P }, none) ∧
    ([5, 6] : List ℕ).count 5 = 1 := by
  refine ⟨?_, ?_, by decide⟩
  · rfl
  · rfl

/-! ## Claim C9 -/

/-- C9: in every scheduler iteration that reaches the sync step (the slot
differs from the previous one), the slot uid is added to the PendingSet
whatever the Boolean result of the sync (`syncOk` is arbitrary); and after
any iteration — even one whose sync raised — a subsequent differing slot
is still synced and added, so one uid's failure never halts the loop or
skips later slots. -/
theorem claim9_sync_failure_isolation (st : SchedState) (b : ℕ) (ok : Bool)
    (h : ((b % 256 : ℕ) : ℤ) ≠ st.last) :
    (schedStep st (some b) false ok).1.pending = insert (b % 256) st.pending ∧
    (b % 256) ∈ (schedStep st (some b) false ok).1.pending ∧
    ∀ (r1 : Bool) (b2 : ℕ) (ok2 : Bool),
      ((b2 % 256 : ℕ) : ℤ) ≠ (schedStep st (some b) r1 ok).1.last →
      (schedStep (schedStep st (some b) r1 ok).1 (some b2) false ok2).2 = some (b2 % 256) ∧
      (b2 % 256) ∈ (schedStep (schedStep st (some b) r1 ok).1 (some b2) false ok2).1.pending := by
  have hstep : schedStep st (some b) false ok
      = ({ last := ((b % 256 : ℕ) : ℤ), pending := insert (b % 256) st.pending },
         some (b % 256)) := by
    have h' : ¬((b : ℤ) % 256 = st.last) := by
      push_cast at h
      exact h
    unfold schedStep
    simp [h']
  refine ⟨by rw [hstep], by rw [hstep]; exact Finset.mem_insert_self _ _, ?_⟩
  intro r1 b2 ok2 h2
  have hstep2 : schedStep (schedStep st (some b) r1 ok).1 (some b2) false ok2
      = ({ last := ((b2 % 256 : ℕ) : ℤ),
           pending := insert (b2 % 256) (schedStep st (some b) r1 ok).1.pending },
         some (b2 % 256)) := by
    have h2' : ¬((b2 : ℤ) % 256 = (schedStep st (some b) r1 ok).1.last) := by
      push_cast at h2
      exact h2
    conv_lhs => rw [schedStep]
    simp [h2']
  exact ⟨by rw [hstep2], by rw [hstep2]; exact Finset.mem_insert_self _ _⟩

/-- Witness for C9 at the initial scheduler state and block 5. -/
theorem claim9_witness :
    (schedStep { last := -1, pending := ∅ } (some 5) false false).1.pending
        = insert (5 % 256) (∅ : Finset ℕ) ∧
    (5 % 256) ∈ (schedStep { last := -1, pending := ∅ } (some 5) false false).1.pending ∧
    ∀ (r1 : Bool) (b2 : ℕ) (ok2 : Bool),
      ((b2 % 256 : ℕ) : ℤ)
          ≠ (schedStep { last := -1, pending := ∅ } (some 5) r1 false).1.last →
      (schedStep (schedStep { last := -1, pending := ∅ } (some 5) r1 false).1
          (some b2) false ok2).2 = some (b2 % 256) ∧
      (b2 % 256) ∈ (schedStep (schedStep { last := -1, pending := ∅ } (some 5) r1 false).1
          (some b2) false ok2).1.pending :=
  claim9_sync_failure_isolation { last := -1, pending := ∅ } 5 false (by decide)

/-! ## Claim C10 -/

/-- C10: `try_get_block` yields None not only on a deadline overrun but
also when the worker's chain query raises before the deadline (the worker
enqueues None), so a None result does not imply that the ttl elapsed; and
a non-None result is exactly the block number the worker fetched. -/
theorem claim10_try_get_block_none_sources (o : BlockFetchOutcome) (n : ℕ) :
    tryGetBlock BlockFetchOutcome.raised = none ∧
    BlockFetchOutcome.raised ≠ BlockFetchOutcome.timeout ∧
    (tryGetBlock o = some n → o = BlockFetchOutcome.fetched n) := by
  refine ⟨rfl, by decide, ?_⟩
  cases o with
  | timeout =>
    intro hcontra
    simp [tryGetBlock] at hcontra
  | raised =>
    intro hcontra
    simp [tryGetBlock] at hcontra
  | fetched m =>
    intro hcontra
    simp only [tryGetBlock, Option.some.injEq] at hcontra
    rw [hcontra]

/-- Witness for C10 at the outcome of a worker that fetched block 7. -/
theorem claim10_witness :
    tryGetBlock BlockFetchOutcome.raised = none ∧
    BlockFetchOutcome.raised ≠ BlockFetchOutcome.timeout ∧
    (tryGetBlock (BlockFetchOutcome.fetched 7) = some 7 →
      BlockFetchOutcome.fetched 7 = BlockFetchOutcome.fetched 7) :=
  claim10_try_get_block_none_sources (BlockFetchOutcome.fetched 7) 7

end PretrainValidator
